import Mathlib

/-!
Shallow embedding of the literate-text extraction engine of literate.py.
Text is modelled as a list of characters; regular expressions of the source
are modelled by equivalent character-level matchers for the concrete
patterns used by the C and Python language profiles.  Fallible operations
return a result type; recursion that mirrors an unbounded loop or the
recursive output walk takes an explicit fuel argument, structural in the
fuel, so that every definition is executable.
-/

namespace Literate

/-- Character classes of the source.  A Python character class of the form
backslash-s matches (over the ASCII range exercised here) space, tab,
newline, carriage return, vertical tab and form feed. -/
def isWs (c : Char) : Bool :=
  c = ' ' || c = '\t' || c = '\n' || c = '\r' || c = '\x0b' || c = '\x0c'

/-- Membership in the class EOLS of literate.py (the string of carriage
return and newline). -/
def isEol (c : Char) : Bool :=
  c = '\r' || c = '\n'

/-- Membership in the class SPACES of literate.py.  The source sets
SPACES to the two-character string of tab and newline. -/
def inSPACES (c : Char) : Bool :=
  c = '\t' || c = '\n'

def isUpper (c : Char) : Bool :=
  65 ≤ c.toNat && c.toNat ≤ 90

def isDigit (c : Char) : Bool :=
  48 ≤ c.toNat && c.toNat ≤ 57

/-- Character class of the NAME argument of a directive:
upper-case letters, digits, underscore and dash. -/
def isNameChar (c : Char) : Bool :=
  isUpper c || isDigit c || c = '_' || c = '-'

/-- A unit of a block: a literal text fragment or a paste reference,
mirroring the string-or-tuple units of the source. -/
inductive Item where
  | lit (s : List Char)
  | paste (n : List Char)
deriving DecidableEq

/-- Failure modes of the embedded engine.  indexError and typeError mirror
the runtime errors the script can raise; undefinedBlock mirrors the
lookup-by-key failure of the output walk; unsupported mirrors the
unsupported-command branch of the dispatch; fuel marks exhaustion of the
recursion bound of the output walk. -/
inductive Err where
  | indexError
  | typeError
  | undefinedBlock (n : List Char)
  | unsupported
  | fuel
deriving DecidableEq

/-- Result of a fallible computation. -/
inductive Res (α : Type) where
  | ok (v : α)
  | err (e : Err)
deriving DecidableEq

/-- The block table: an association list from block names to item lists,
in insertion order, mirroring the blocks dictionary of extract. -/
abbrev Blocks : Type := List (List Char × List Item)

def lookupB (k : List Char) : Blocks → Option (List Item)
  | [] => none
  | p :: rest => if p.1 = k then some p.2 else lookupB k rest

def appendItem (B : Blocks) (k : List Char) (it : Item) : Blocks :=
  B.map (fun p => if p.1 = k then (p.1, p.2 ++ [it]) else p)

/-- setdefault of the blocks dictionary: keep an existing entry, otherwise
add an empty one at the end. -/
def ensureKey (B : Blocks) (k : List Char) : Blocks :=
  match lookupB k B with
  | some _ => B
  | none => B ++ [(k, [])]

def mainName : List Char := ['M', 'A', 'I', 'N']

/-- Python slice text[a:b]. -/
def slice (text : List Char) (a b : Nat) : List Char :=
  (text.drop a).take (b - a)

/-- Python text.split on a newline. -/
def splitNl : List Char → List (List Char)
  | [] => [ [] ]
  | c :: rest =>
    if c = '\n' then [] :: splitNl rest
    else
      match splitNl rest with
      | [] => [ [ c ] ]
      | l :: ls => (c :: l) :: ls

/-- Python newline.join. -/
def joinNl : List (List Char) → List Char
  | [] => []
  | [ l ] => l
  | l :: ls => l ++ '\n' :: joinNl ls

/-- Python str.replace: replace every non-overlapping occurrence of old by
new, scanning left to right.  Fuel-structural; a fuel of the text length
plus one suffices for the non-empty patterns of the escape tables. -/
def replaceAllF : Nat → List Char → List Char → List Char → List Char
  | 0, _, _, t => t
  | _ + 1, _, _, [] => []
  | fuel + 1, old, new, c :: rest =>
    if old.isPrefixOf (c :: rest) then
      new ++ replaceAllF fuel old new ((c :: rest).drop old.length)
    else
      c :: replaceAllF fuel old new rest

/-- Search for the first occurrence of a literal pattern at or after the
offset carried in the accumulator; the list argument is the suffix of the
text starting at that offset.  Returns the span of the match. -/
def findFromF : Nat → List Char → List Char → Nat → Option (Nat × Nat)
  | 0, _, _, _ => none
  | _ + 1, _, [], _ => none
  | fuel + 1, pat, c :: rest, i =>
    if pat.isPrefixOf (c :: rest) then some (i, i + pat.length)
    else findFromF fuel pat rest (i + 1)

/-- All non-overlapping matches of a literal pattern, left to right,
mirroring finditer of a literal regular expression. -/
def findAllF : Nat → List Char → List Char → Nat → List (Nat × Nat)
  | 0, _, _, _ => []
  | _ + 1, _, [], _ => []
  | fuel + 1, pat, c :: rest, i =>
    if pat.isPrefixOf (c :: rest) then
      (i, i + pat.length) :: findAllF fuel pat ((c :: rest).drop pat.length) (i + pat.length)
    else
      findAllF fuel pat rest (i + 1)

def braces3 : List Char := ['\x7d', '\x7d', '\x7d']

/-- Match of the Python end pattern (optional whitespace, optional hash,
optional whitespace, three closing braces) at the head of the given
suffix; returns the match length.  The greedy whitespace runs of the
pattern are forced, so backtracking reduces to trying the hash and then
not trying it. -/
def pyEndMatchAt (t : List Char) : Option Nat :=
  let w := t.takeWhile isWs
  let r := t.drop w.length
  if braces3.isPrefixOf r then some (w.length + 3)
  else
    match r with
    | '#' :: r2 =>
      let w2 := r2.takeWhile isWs
      if braces3.isPrefixOf (r2.drop w2.length) then
        some (w.length + 1 + w2.length + 3)
      else none
    | _ => none

/-- re.search of the Python end pattern from the offset carried in the
accumulator; the list argument is the suffix of the text at that offset.
Returns the span of the leftmost match. -/
def pyEndSearchF : Nat → List Char → Nat → Option (Nat × Nat)
  | 0, _, _ => none
  | fuel + 1, t, i =>
    match pyEndMatchAt t with
    | some len => some (i, i + len)
    | none =>
      match t with
      | [] => none
      | _ :: rest => pyEndSearchF fuel rest (i + 1)

/-- Command keywords, each with its following colon. -/
def kwPasteC : List Char := ['P', 'A', 'S', 'T', 'E', ':']

def kwCutC : List Char := ['C', 'U', 'T', ':']

def kwEndC : List Char := ['E', 'N', 'D', ':']

def kwVerbC : List Char := ['V', 'E', 'R', 'B', 'A', 'T', 'I', 'M', ':']

def startTok : List Char := ['S', 'T', 'A', 'R', 'T']

def endTok : List Char := ['E', 'N', 'D']

/-- The NAME group of a command pattern: an upper-case letter followed by
the greedy run of name characters (the trailing optional character class
of the pattern never adds anything beyond the greedy run). -/
def matchNameTok : List Char → Option (List Char)
  | [] => none
  | c :: rest => if isUpper c then some (c :: rest.takeWhile isNameChar) else none

/-- Try one of the three name-taking command patterns against the text
after its leading whitespace has been dropped. -/
def tryCmd (kw : List Char) (r : List Char) : Option (List Char) :=
  if kw.isPrefixOf r then matchNameTok (r.drop kw.length) else none

/-- Try the verbatim command pattern: the keyword then START or END. -/
def tryVerb (r : List Char) : Option (List Char) :=
  if kwVerbC.isPrefixOf r then
    let r2 := r.drop kwVerbC.length
    if startTok.isPrefixOf r2 then some startTok
    else if endTok.isPrefixOf r2 then some endTok
    else none
  else none

/-- Language.command: return the pair of keyword and argument when one of
the four command patterns matches a prefix of the text (each pattern
skips leading whitespace first).  The patterns are mutually exclusive, so
the dictionary iteration order of the source is immaterial. -/
def command (t : List Char) : Option (String × List Char) :=
  let r := t.dropWhile isWs
  match tryCmd kwPasteC r with
  | some nm => some ("PASTE", nm)
  | none =>
    match tryCmd kwCutC r with
    | some nm => some ("CUT", nm)
    | none =>
      match tryCmd kwEndC r with
      | some nm => some ("END", nm)
      | none =>
        match tryVerb r with
        | some a => some ("VERBATIM", a)
        | none => none

/-- Language._processBlock: decode the generic escape pattern, a backslash
followed by any character other than a newline (the dot of the pattern
does not match a newline), into that character. -/
def processBlock : List Char → List Char
  | [] => []
  | [c] => if c = '\\' then ['\\'] else [c]
  | c :: d :: rest2 =>
    if c = '\\' then
      if d = '\n' then c :: processBlock (d :: rest2) else d :: processBlock rest2
    else c :: processBlock (d :: rest2)

/-- The backward scan of Language._processVerbatim: walk the characters
before the verbatim offset from nearest to farthest, stopping at an
end-of-line character, collecting SPACES characters and resetting the
collection at every other character. -/
def backSpaces : List Char → List Char → List Char
  | [], acc => acc
  | c :: rest, acc =>
    if isEol c then acc
    else if inSPACES c then backSpaces rest (acc ++ [c])
    else backSpaces rest []

/-- The reference indent measured when a verbatim span closes. -/
def refIndent (text : List Char) (v : Nat) : List Char :=
  (backSpaces ((text.take v).reverse) []).reverse

/-- Language._deindent: drop the longest common prefix of the line and
the indent, comparing character by character. -/
def deindent : List Char → List Char → List Char
  | l, [] => l
  | [], _ => []
  | c :: l, d :: ind => if c = d then deindent l ind else c :: l

/-- A language profile: the concrete matchers standing for the start, end
and strip regular expressions, the escape table and the line-based flag. -/
structure Lang where
  lineBased : Bool
  startPat : List Char
  endSearch : List Char → Nat → Option (Nat × Nat)
  stripLine : List Char → List Char
  stripAll : List Char → List Char
  stripMatch : List Char → Bool
  escape : List (List Char × List Char)

/-- Language._processVerbatim: measure the reference indent, split the
captured span into lines, drop lines matching the strip pattern, deindent
the kept lines, rejoin them and drop one leading newline. -/
def processVerbatim (L : Lang) (text : List Char) (a b v : Nat) : List Char :=
  let spaces := refIndent text v
  let lines := (splitNl (slice text a b)).filter (fun l => !(L.stripMatch l))
  let blk := joinNl (lines.map (fun l => deindent l spaces))
  match blk with
  | '\n' :: rest => rest
  | other => other

/-- Strip phase of extract: per line when the profile is line based,
a global removal otherwise. -/
def stripPhase (L : Lang) (t : List Char) : List Char :=
  if L.lineBased then joinNl ((splitNl t).map L.stripLine) else L.stripAll t

/-- Escape phase of extract: apply every pair of the escape table in
order as a global literal replacement. -/
def escPhase (tbl : List (List Char × List Char)) (t : List Char) : List Char :=
  tbl.foldl (fun acc p => replaceAllF (acc.length + 1) p.1 p.2 acc) t

/-- One accepted delimited region: the index of its start match in the
enumeration of all start matches, the span of the start match and the
span of the end match. -/
structure Region where
  idx : Nat
  sStart : Nat
  sEnd : Nat
  eStart : Nat
  eEnd : Nat
deriving DecidableEq

/-- The acceptance pass of extract: for each start match search an end
match from the end of the start match; skip the start match when no end
match exists or when the END offset of the start match precedes the end
offset of the previously accepted region; otherwise accept and move the
cursor to the end match's end. -/
def acceptRegionsF (es : List Char → Nat → Option (Nat × Nat)) (text : List Char) :
    List (Nat × Nat) → Nat → Nat → List Region
  | [], _, _ => []
  | (ss, se) :: rest, i, lastEnd =>
    match es text se with
    | none => acceptRegionsF es text rest (i + 1) lastEnd
    | some (est, ee) =>
      if se < lastEnd then acceptRegionsF es text rest (i + 1) lastEnd
      else ⟨i, ss, se, est, ee⟩ :: acceptRegionsF es text rest (i + 1) ee

/-- Stripped and escape-decoded interior text of a region. -/
def processedText (L : Lang) (text : List Char) (r : Region) : List Char :=
  escPhase L.escape (stripPhase L (slice text r.sEnd r.eStart))

/-- Scanner state: the block table, the name of the current target block,
the open verbatim offset and the end offset of the last accepted region. -/
structure ScanSt where
  blocks : Blocks
  cur : List Char
  verbatim : Option Nat
  lastEnd : Nat

def appendCur (st : ScanSt) (it : Item) : ScanSt :=
  { st with blocks := appendItem st.blocks st.cur it }

def curItems (st : ScanSt) : List Item :=
  (lookupB st.cur st.blocks).getD []

/-- Drop one leading newline of the first fragment; indexing an empty
text for its first character fails. -/
def stripLeadNl (t : List Char) : Res (List Char) :=
  match t with
  | [] => Res.err Err.indexError
  | c :: rest => Res.ok (if c = '\n' then rest else c :: rest)

/-- Decide the synthetic-newline insertion: the last unit of the target
block must be a string fragment whose last character, whose lookup fails
on an empty fragment, is not a newline. -/
def nlDecide (blk : List Item) : Res Bool :=
  match blk.getLast? with
  | some (Item.lit s) =>
    match s.getLast? with
    | none => Res.err Err.indexError
    | some c => Res.ok (decide (c ≠ '\n'))
  | _ => Res.ok false

/-- Flush of an open verbatim gap at a non-command region: the raw text
between the verbatim offset (or the last region end) and this region's
start is escape-decoded and appended. -/
def scanLitFlush (text : List Char) (st : ScanSt) (r : Region) : ScanSt :=
  match st.verbatim with
  | some v => appendCur st (Item.lit (processBlock (slice text (max v st.lastEnd) r.sStart)))
  | none => st

/-- Leading-newline strip of the very first fragment. -/
def scanLitStrip (stp : Bool) (r : Region) (blk : List Item) (t : List Char) : Res (List Char) :=
  if stp && r.idx == 0 && blk.isEmpty then stripLeadNl t else Res.ok t

/-- Synthetic-newline decision for a region that is not the first start
match. -/
def scanLitNl (nl : Bool) (r : Region) (blk : List Item) : Res Bool :=
  if nl && decide (0 < r.idx) then nlDecide blk else Res.ok false

/-- The non-command branch of the dispatch: flush an open verbatim gap,
strip the leading newline of the very first fragment, insert the
synthetic newline and append the escape-decoded fragment. -/
def scanLit (nl stp : Bool) (text : List Char) (st : ScanSt) (r : Region) (t : List Char) :
    Res ScanSt :=
  let st1 := scanLitFlush text st r
  match scanLitStrip stp r (curItems st1) t with
  | Res.err e => Res.err e
  | Res.ok t2 =>
    match scanLitNl nl r (curItems st1) with
    | Res.err e => Res.err e
    | Res.ok ins =>
      let st2 := if ins then appendCur st1 (Item.lit ['\n']) else st1
      Res.ok { appendCur st2 (Item.lit (processBlock t2)) with lastEnd := r.eEnd }

/-- Dispatch of one accepted region, mirroring the body of the scanning
loop of extract. -/
def scanStep (nl stp : Bool) (L : Lang) (text : List Char) (st : ScanSt) (r : Region) :
    Res ScanSt :=
  let t := processedText L text r
  match command t with
  | none => scanLit nl stp text st r t
  | some (k, a) =>
    if k = "CUT" then
      Res.ok { st with blocks := ensureKey st.blocks a, cur := a, lastEnd := r.eEnd }
    else if k = "END" then
      Res.ok { st with cur := mainName, lastEnd := r.eEnd }
    else if k = "PASTE" then
      Res.ok { appendCur st (Item.paste a) with lastEnd := r.eEnd }
    else if k = "VERBATIM" then
      if a = startTok then
        Res.ok { st with verbatim := some r.eEnd, lastEnd := r.eEnd }
      else
        match st.verbatim with
        | none => Res.err Err.typeError
        | some v =>
          Res.ok { appendCur { st with verbatim := none }
              (Item.lit (processVerbatim L text (max v st.lastEnd) r.sStart v))
            with lastEnd := r.eEnd }
    else Res.err Err.unsupported

def scanFold (nl stp : Bool) (L : Lang) (text : List Char) :
    List Region → ScanSt → Res ScanSt
  | [], st => Res.ok st
  | r :: rest, st =>
    match scanStep nl stp L text st r with
    | Res.err e => Res.err e
    | Res.ok st2 => scanFold nl stp L text rest st2

/-- The recursive output walk over one nesting level; the rec argument
resolves a paste reference one level deeper. -/
def outAux (rec : List Item → Res (List (List Char))) (B : Blocks) :
    List Item → Res (List (List Char))
  | [] => Res.ok []
  | Item.lit s :: rest =>
    match outAux rec B rest with
    | Res.ok out => Res.ok (s :: out)
    | Res.err e => Res.err e
  | Item.paste n :: rest =>
    match lookupB n B with
    | none => Res.err (Err.undefinedBlock n)
    | some items =>
      match rec items with
      | Res.err e => Res.err e
      | Res.ok o1 =>
        match outAux rec B rest with
        | Res.err e => Res.err e
        | Res.ok o2 => Res.ok (o1 ++ o2)

/-- Language._output with a bound on the paste nesting depth: the source
recursion has no bound and diverges on paste cycles, which this fuel
makes observable as a fuel error that persists for every fuel value. -/
def outputF : Nat → Blocks → List Item → Res (List (List Char))
  | 0, B, l => outAux (fun _ => Res.err Err.fuel) B l
  | fuel + 1, B, l => outAux (fun items => outputF fuel B items) B l

/-- Runtime options of the engine. -/
structure Options where
  newlines : Bool
  strip : Bool

/-- The option coercion of Language.__init__: the value of the expression
options and options.f or True. -/
def pyAndOr (o : Option Options) (f : Options → Bool) : Bool :=
  match o with
  | none => true
  | some v => if f v then f v else true

/-- Language.extract: find the start matches, accept regions, run the
dispatch loop and walk the MAIN block of the resulting table. -/
def extractF (fuel : Nat) (opts : Option Options) (L : Lang) (text : List Char) :
    Res (List (List Char)) :=
  let nl := pyAndOr opts (fun o => o.newlines)
  let stp := pyAndOr opts (fun o => o.strip)
  let starts := findAllF (text.length + 1) L.startPat text 0
  let regs := acceptRegionsF L.endSearch text starts 0 0
  match scanFold nl stp L text regs ⟨[(mainName, [])], mainName, none, 0⟩ with
  | Res.err e => Res.err e
  | Res.ok st =>
    match lookupB mainName st.blocks with
    | none => Res.err (Err.undefinedBlock mainName)
    | some items => outputF fuel st.blocks items

/-- The C-family strip pattern matched at the head of a suffix: a run of
spaces and tabs, a star, then optionally one space or tab; returns the
rest after the match. -/
def cMatchAt (t : List Char) : Option (List Char) :=
  let w := t.takeWhile (fun c => c = ' ' || c = '\t')
  match t.drop w.length with
  | '*' :: r2 =>
    some (match r2 with
      | d :: r3 => if d = ' ' || d = '\t' then r3 else d :: r3
      | [] => [])
  | _ => none

/-- re.split-based removal of every match of the C strip pattern. -/
def cStripAllF : Nat → List Char → List Char
  | 0, t => t
  | _ + 1, [] => []
  | fuel + 1, c :: rest =>
    match cMatchAt (c :: rest) with
    | some r => cStripAllF fuel r
    | none => c :: cStripAllF fuel rest

def cStripAll (t : List Char) : List Char :=
  cStripAllF (t.length + 1) t

/-- The Python-family strip pattern applied to one line: optional
whitespace, a pipe or hash, then optionally one whitespace character;
a line that does not match is kept unchanged. -/
def pyStripLine (l : List Char) : List Char :=
  let w := l.takeWhile isWs
  match l.drop w.length with
  | c :: r2 =>
    if c = '|' || c = '#' then
      match r2 with
      | d :: r3 => if isWs d then r3 else d :: r3
      | [] => []
    else l
  | [] => l

def pyStripMatch (l : List Char) : Bool :=
  match (l.drop (l.takeWhile isWs).length) with
  | c :: _ => c = '|' || c = '#'
  | [] => false

def cEscTable : List (List Char × List Char) :=
  [ ("\\*\\/".toList, "*/".toList) ]

def pyEscTable : List (List Char × List Char) :=
  [ ("\\\x7d\\\x7d\\\x7d".toList, "\x7d\x7d\x7d".toList),
    ("\\\x22\\\x22\\\x22".toList, "\x22\x22\x22".toList) ]

/-- The C language profile. -/
def CLang : Lang where
  lineBased := false
  startPat := "/**".toList
  endSearch := fun text i => findFromF (text.length + 1) ("*/".toList) (text.drop i) i
  stripLine := fun l => l
  stripAll := cStripAll
  stripMatch := fun l => (cMatchAt l).isSome
  escape := cEscTable

/-- The Python language profile. -/
def PyLang : Lang where
  lineBased := true
  startPat := "\x7b\x7b\x7b".toList
  endSearch := fun text i => pyEndSearchF (text.length + 1) (text.drop i) i
  stripLine := pyStripLine
  stripAll := fun t => t
  stripMatch := pyStripMatch
  escape := pyEscTable

/-! Declarative vocabulary used by the theorems below. -/

/-- A list of whitespace characters. -/
def WsRun (ws : List Char) : Prop := ∀ c ∈ ws, isWs c = true

/-- A well-formed directive NAME as the pattern accepts it: an upper-case
letter followed by name characters. -/
def NameOk (nm : List Char) : Prop :=
  ∃ c cs, nm = c :: cs ∧ isUpper c = true ∧ ∀ x ∈ cs, isNameChar x = true

/-- The text following a NAME group does not extend it. -/
def NameBoundary (rest : List Char) : Prop :=
  rest = [] ∨ ∃ d ds, rest = d :: ds ∧ isNameChar d = false

/-- Declarative reading of the command matcher: after a run of leading
whitespace the text begins with a keyword, a colon and a maximal
well-formed argument, with arbitrary text allowed afterwards. -/
def DirectiveAt (t : List Char) (k : String) (nm : List Char) : Prop :=
  ∃ ws rest, WsRun ws ∧
    ((k = "PASTE" ∧ NameOk nm ∧ NameBoundary rest ∧ t = ws ++ (kwPasteC ++ (nm ++ rest))) ∨
     (k = "CUT" ∧ NameOk nm ∧ NameBoundary rest ∧ t = ws ++ (kwCutC ++ (nm ++ rest))) ∨
     (k = "END" ∧ NameOk nm ∧ NameBoundary rest ∧ t = ws ++ (kwEndC ++ (nm ++ rest))) ∨
     (k = "VERBATIM" ∧
       ((nm = startTok ∧ t = ws ++ (kwVerbC ++ (startTok ++ rest))) ∨
        (nm = endTok ∧ t = ws ++ (kwVerbC ++ (endTok ++ rest))))))

/-- The paste references of an item list. -/
def pasteNames (l : List Item) : List (List Char) :=
  l.filterMap (fun it => match it with | Item.paste n => some n | Item.lit _ => none)

/-- A ranking certificate for a block table: every paste reference of a
stored block names a stored block of strictly smaller rank.  A table
admits one exactly when its paste-reference graph is acyclic. -/
def RankOk (B : Blocks) (rank : List Char → Nat) : Prop :=
  ∀ a items, lookupB a B = some items →
    ∀ n ∈ pasteNames items, ∃ bi, lookupB n B = some bi ∧ rank n < rank a

/-- The names targeted by CUT directives among the accepted regions. -/
def cutNames (L : Lang) (text : List Char) (regs : List Region) : List (List Char) :=
  regs.filterMap (fun r =>
    match command (processedText L text r) with
    | some (k, a) => if k = "CUT" then some a else none
    | none => none)

/-- Accepted regions are chained: each start match ends at or after the
cursor left by the previous accepted region. -/
def Chained : Nat → List Region → Prop
  | _, [] => True
  | le, r :: rest => le ≤ r.sEnd ∧ Chained r.eEnd rest

/-- Reference indent as the specification describes it: the run of spaces
and tabs immediately preceding the verbatim offset, scanning backward and
stopping at the first character that is neither. -/
def refIndentSpec (text : List Char) (v : Nat) : List Char :=
  (((text.take v).reverse).takeWhile (fun c => c = ' ' || c = '\t')).reverse

/-- Total character count of an output fragment list. -/
def sumLen (l : List (List Char)) : Nat := (l.map List.length).sum

/-! Concrete inputs and outputs used by the theorems below. -/

def xName : List Char := ['X']

def c1In : List Char := "\x7b\x7b\x7bCUT:FOO and more\x7d\x7d\x7d\x7b\x7b\x7bhello\x7d\x7d\x7d".toList

def c2In : List Char :=
  "\x7b\x7b\x7bAAA\x7d\x7d\x7d\n\x7b\x7b\x7bPASTE:X\x7d\x7d\x7d\n\x7b\x7b\x7bCUT:X\x7d\x7d\x7d\n\x7b\x7b\x7bfirst\x7d\x7d\x7d\n\x7b\x7b\x7bEND:X\x7d\x7d\x7d\n\x7b\x7b\x7bBBB\x7d\x7d\x7d\n\x7b\x7b\x7bCUT:X\x7d\x7d\x7d\n\x7b\x7b\x7bsecond\x7d\x7d\x7d\n\x7b\x7b\x7bEND:X\x7d\x7d\x7d\n\x7b\x7b\x7bCCC\x7d\x7d\x7d".toList

def c2Out : List (List Char) :=
  [ "AAA".toList, "first".toList, ['\n'], "second".toList, "BBB".toList, ['\n'], "CCC".toList ]

def c2WB : Blocks := [(mainName, [Item.paste xName]), (xName, [Item.lit ['b']])]

def c3In : List Char :=
  "\x7b\x7b\x7bPASTE:X\x7d\x7d\x7d\n\x7b\x7b\x7bCUT:X\x7d\x7d\x7d\n\x7b\x7b\x7bPASTE:X\x7d\x7d\x7d".toList

/-- The block table the scan of c3In produces: MAIN pastes X and X pastes
itself. -/
def c3Bcyc : Blocks := [(mainName, [Item.paste xName]), (xName, [Item.paste xName])]

def c3Sz : List Char :=
  "\x7b\x7b\x7bCUT:X\x7d\x7d\x7d\x7b\x7b\x7b0123456789012345678901234567890123456789012345678901234567890123456789\x7d\x7d\x7d\x7b\x7b\x7bEND:X\x7d\x7d\x7d\x7b\x7b\x7bPASTE:X\x7d\x7d\x7d\x7b\x7b\x7bPASTE:X\x7d\x7d\x7d\x7b\x7b\x7bPASTE:X\x7d\x7d\x7d".toList

def c3SzOut : List (List Char) :=
  [ "0123456789012345678901234567890123456789012345678901234567890123456789".toList,
    "0123456789012345678901234567890123456789012345678901234567890123456789".toList,
    "0123456789012345678901234567890123456789012345678901234567890123456789".toList ]

def c3WB : Blocks := [(mainName, [Item.lit ['a'], Item.paste xName]), (xName, [Item.lit ['b']])]

def c3WRank : List Char → Nat := fun n => if n = mainName then 1 else 0

def c4In : List Char := "/**A*/**B*/".toList

def c4Starts : List (Nat × Nat) := findAllF (c4In.length + 1) CLang.startPat c4In 0

def c5In : List Char := "\x7b\x7b\x7b\nA\x7d\x7d\x7d\x7b\x7b\x7bB\x7d\x7d\x7d".toList

def c6In : List Char :=
  "\t# \x7b\x7b\x7bVERBATIM:START\x7d\x7d\x7d\n\t\tfoo\n\t# \x7b\x7b\x7bVERBATIM:END\x7d\x7d\x7d".toList

def c6Sp : List Char :=
  "\x7b\x7b\x7bVERBATIM:START\x7d\x7d\x7d\n    code\n\x7b\x7b\x7bVERBATIM:END\x7d\x7d\x7d".toList

def c7In : List Char := "\x7b\x7b\x7bA\\\x7d\\\x7d\\\x7dB\x7d\x7d\x7d".toList

def c7Nl : List Char := "\x7b\x7b\x7ba\\\nb\x7d\x7d\x7d".toList

def c8In : List Char := "\x7b\x7b\x7bCUT:foo\x7d\x7d\x7d".toList

def c9In : List Char :=
  "\x7b\x7b\x7bCUT:Y\x7d\x7d\x7d\x7b\x7b\x7bPASTE:X\x7d\x7d\x7d\x7b\x7b\x7bEND:Y\x7d\x7d\x7d\x7b\x7b\x7bhello\x7d\x7d\x7d".toList

def c9Bad : List Char := "\x7b\x7b\x7bPASTE:X\x7d\x7d\x7d\x7b\x7b\x7bhello\x7d\x7d\x7d".toList

def c10In : List Char := "/***/".toList

/-! Helper lemmas. -/

theorem isPrefixOf_ex {p l : List Char} : p.isPrefixOf l = true ↔ ∃ r, l = p ++ r := by
  induction p generalizing l with
  | nil =>
    simp [List.isPrefixOf]
  | cons a as ih =>
    cases l with
    | nil => simp [List.isPrefixOf]
    | cons b bs =>
      simp only [List.isPrefixOf, Bool.and_eq_true, beq_iff_eq, ih]
      constructor
      · rintro ⟨rfl, r, rfl⟩
        exact ⟨r, rfl⟩
      · rintro ⟨r, h⟩
        injection h with h1 h2
        exact ⟨h1.symm, r, h2⟩

theorem isPrefixOf_app (p r : List Char) : p.isPrefixOf (p ++ r) = true :=
  isPrefixOf_ex.mpr ⟨r, rfl⟩

theorem mem_takeWhile_p {p : Char → Bool} : ∀ {l : List Char} {x : Char},
    x ∈ l.takeWhile p → p x = true := by
  intro l
  induction l with
  | nil => intro x h; simp [List.takeWhile] at h
  | cons a as ih =>
    intro x h
    by_cases ha : p a
    · rw [List.takeWhile_cons_of_pos ha] at h
      rcases List.mem_cons.mp h with rfl | h2
      · exact ha
      · exact ih h2
    · rw [List.takeWhile_cons_of_neg ha] at h
      simp at h

theorem takeWhile_all {p : Char → Bool} : ∀ {l : List Char},
    (∀ x ∈ l, p x = true) → l.takeWhile p = l := by
  intro l
  induction l with
  | nil => intro _; rfl
  | cons a as ih =>
    intro h
    rw [List.takeWhile_cons_of_pos (h a (List.mem_cons_self a as))]
    rw [ih (fun x hx => h x (List.mem_cons_of_mem a hx))]

theorem takeWhile_app_pos {p : Char → Bool} : ∀ {m k : List Char},
    (∀ x ∈ m, p x = true) → (m ++ k).takeWhile p = m ++ k.takeWhile p := by
  intro m
  induction m with
  | nil => intro k _; rfl
  | cons a as ih =>
    intro k h
    rw [List.cons_append, List.takeWhile_cons_of_pos (h a (List.mem_cons_self a as))]
    rw [ih (fun x hx => h x (List.mem_cons_of_mem a hx))]
    rfl

theorem takeWhile_app_neg {p : Char → Bool} : ∀ {m k : List Char},
    (∃ x ∈ m, p x = false) → (m ++ k).takeWhile p = m.takeWhile p := by
  intro m
  induction m with
  | nil => rintro k ⟨x, hx, _⟩; simp at hx
  | cons a as ih =>
    rintro k ⟨x, hx, hpx⟩
    by_cases ha : p a
    · rw [List.cons_append, List.takeWhile_cons_of_pos ha, List.takeWhile_cons_of_pos ha]
      have hxas : x ∈ as := by
        rcases List.mem_cons.mp hx with rfl | h2
        · rw [ha] at hpx; cases hpx
        · exact h2
      rw [ih ⟨x, hxas, hpx⟩]
    · rw [List.cons_append, List.takeWhile_cons_of_neg ha, List.takeWhile_cons_of_neg ha]

theorem takeWhile_app_bound {p : Char → Bool} {cs rest : List Char}
    (h : ∀ x ∈ cs, p x = true)
    (hb : rest = [] ∨ ∃ d ds, rest = d :: ds ∧ p d = false) :
    (cs ++ rest).takeWhile p = cs := by
  rw [takeWhile_app_pos h]
  rcases hb with rfl | ⟨d, ds, rfl, hd⟩
  · simp
  · rw [List.takeWhile_cons_of_neg (by rw [hd]; exact Bool.false_ne_true), List.append_nil]

theorem dropWhile_head_neg {p : Char → Bool} : ∀ {l : List Char},
    l.dropWhile p = [] ∨ ∃ d ds, l.dropWhile p = d :: ds ∧ p d = false := by
  intro l
  induction l with
  | nil => exact Or.inl rfl
  | cons a as ih =>
    by_cases ha : p a
    · rw [List.dropWhile_cons_of_pos ha]; exact ih
    · rw [List.dropWhile_cons_of_neg ha]
      exact Or.inr ⟨a, as, rfl, Bool.of_not_eq_true ha⟩

theorem dropWhile_ws_app {ws : List Char} {x : Char} {l : List Char}
    (hws : WsRun ws) (hx : isWs x = false) :
    (ws ++ x :: l).dropWhile isWs = x :: l := by
  induction ws with
  | nil =>
    rw [List.nil_append, List.dropWhile_cons_of_neg (by rw [hx]; exact Bool.false_ne_true)]
  | cons a as ih =>
    rw [List.cons_append, List.dropWhile_cons_of_pos (hws a (List.mem_cons_self a as))]
    exact ih (fun c hc => hws c (List.mem_cons_of_mem a hc))

theorem pyAndOr_true (o : Option Options) (f : Options → Bool) : pyAndOr o f = true := by
  cases o with
  | none => rfl
  | some v =>
    show (if f v then f v else true) = true
    by_cases h : f v
    · rw [if_pos h]; exact h
    · rw [if_neg h]

theorem command_nil : command [] = none := rfl

/-! Lemmas about the output walk. -/

theorem outAux_mono {r1 r2 : List Item → Res (List (List Char))} (B : Blocks)
    (h : ∀ its o, r1 its = Res.ok o → r2 its = Res.ok o) :
    ∀ l o, outAux r1 B l = Res.ok o → outAux r2 B l = Res.ok o := by
  intro l
  induction l with
  | nil => intro o ho; exact ho
  | cons it rest ih =>
    intro o ho
    cases it with
    | lit s =>
      simp only [outAux] at ho ⊢
      cases hr : outAux r1 B rest with
      | ok o2 => simp only [hr] at ho; rw [ih o2 hr]; exact ho
      | err e => simp [hr] at ho
    | paste n =>
      simp only [outAux] at ho ⊢
      cases hl : lookupB n B with
      | none => simp [hl] at ho
      | some items =>
        simp only [hl] at ho ⊢
        cases h1 : r1 items with
        | err e => simp [h1] at ho
        | ok o1 =>
          simp only [h1] at ho
          rw [h _ _ h1]
          cases h2 : outAux r1 B rest with
          | err e => simp [h2] at ho
          | ok o2 => simp only [h2] at ho; rw [ih o2 h2]; exact ho

theorem outputF_mono (B : Blocks) :
    ∀ f l o, outputF f B l = Res.ok o → outputF (f + 1) B l = Res.ok o := by
  intro f
  induction f with
  | zero =>
    intro l o ho
    exact outAux_mono B (fun its o2 h2 => by cases h2) l o ho
  | succ f ih =>
    intro l o ho
    exact outAux_mono B (fun its o2 h2 => ih its o2 h2) l o ho

theorem outAux_app {rec : List Item → Res (List (List Char))} {B : Blocks} :
    ∀ {l1 l2 : List Item} {o1 o2 : List (List Char)},
    outAux rec B l1 = Res.ok o1 → outAux rec B l2 = Res.ok o2 →
    outAux rec B (l1 ++ l2) = Res.ok (o1 ++ o2) := by
  intro l1
  induction l1 with
  | nil =>
    intro l2 o1 o2 h1 h2
    rw [outAux] at h1
    injection h1 with h1
    rw [List.nil_append, ← h1, List.nil_append]
    exact h2
  | cons it rest ih =>
    intro l2 o1 o2 h1 h2
    cases it with
    | lit s =>
      simp only [outAux] at h1
      cases hr : outAux rec B rest with
      | err e => simp [hr] at h1
      | ok orest =>
        simp only [hr] at h1
        injection h1 with h1
        rw [List.cons_append]
        simp only [outAux]
        rw [ih hr h2, ← h1]
        rfl
    | paste n =>
      simp only [outAux] at h1
      cases hl : lookupB n B with
      | none => simp [hl] at h1
      | some items =>
        simp only [hl] at h1
        cases hi : rec items with
        | err e => simp [hi] at h1
        | ok oi =>
          simp only [hi] at h1
          cases hr : outAux rec B rest with
          | err e => simp [hr] at h1
          | ok orest =>
            simp only [hr] at h1
            injection h1 with h1
            rw [List.cons_append]
            simp only [outAux, hl, hi]
            rw [ih hr h2, ← h1]
            rw [List.append_assoc]

theorem outAux_nopaste (rec : List Item → Res (List (List Char))) (B : Blocks) :
    ∀ l, pasteNames l = [] → ∃ out, outAux rec B l = Res.ok out := by
  intro l
  induction l with
  | nil => exact fun _ => ⟨[], rfl⟩
  | cons it rest ih =>
    intro h
    cases it with
    | lit s =>
      have h2 : pasteNames rest = [] := by simpa [pasteNames] using h
      rcases ih h2 with ⟨o, ho⟩
      exact ⟨s :: o, by simp only [outAux, ho]⟩
    | paste n => simp [pasteNames] at h

theorem outRankOk (B : Blocks) (rank : List Char → Nat) (hB : RankOk B rank) :
    ∀ f l, (∀ n ∈ pasteNames l, ∃ bi, lookupB n B = some bi ∧ rank n < f) →
    ∃ out, outputF f B l = Res.ok out := by
  intro f
  induction f with
  | zero =>
    intro l hl
    have hnone : pasteNames l = [] := by
      cases hp : pasteNames l with
      | nil => rfl
      | cons n ns =>
        rcases hl n (by rw [hp]; exact List.mem_cons_self n ns) with ⟨bi, _, hr⟩
        exact absurd hr (Nat.not_lt_zero _)
    exact outAux_nopaste _ B l hnone
  | succ f ih =>
    intro l
    induction l with
    | nil => exact fun _ => ⟨[], rfl⟩
    | cons it rest ihl =>
      intro hl
      cases it with
      | lit s =>
        have heq : pasteNames (Item.lit s :: rest) = pasteNames rest := by simp [pasteNames]
        rcases ihl (fun n hn => hl n (by rw [heq]; exact hn)) with ⟨o, ho⟩
        have ho2 : outAux (fun items => outputF f B items) B rest = Res.ok o := ho
        exact ⟨s :: o, by show outAux _ B _ = _; simp only [outAux, ho2]⟩
      | paste n =>
        have hcons : pasteNames (Item.paste n :: rest) = n :: pasteNames rest := by
          simp [pasteNames]
        rcases hl n (by rw [hcons]; exact List.mem_cons_self n _) with ⟨bi, hbi, hrank⟩
        have hbihyp : ∀ m ∈ pasteNames bi, ∃ bm, lookupB m B = some bm ∧ rank m < f := by
          intro m hm
          rcases hB n bi hbi m hm with ⟨bm, hbm, hr⟩
          exact ⟨bm, hbm, Nat.lt_of_lt_of_le hr (Nat.lt_succ_iff.mp hrank)⟩
        rcases ih bi hbihyp with ⟨w, hw⟩
        have hrest : ∀ m ∈ pasteNames rest, ∃ bm, lookupB m B = some bm ∧ rank m < f + 1 := by
          intro m hm
          exact hl m (by rw [hcons]; exact List.mem_cons_of_mem n hm)
        rcases ihl hrest with ⟨o2, ho2⟩
        have ho2' : outAux (fun items => outputF f B items) B rest = Res.ok o2 := ho2
        refine ⟨w ++ o2, ?_⟩
        show outAux (fun items => outputF f B items) B (Item.paste n :: rest) = _
        simp only [outAux, hbi, hw, ho2']

/-! Theorems settling the claims. -/

/-- C2 (confirmed): paste resolution is deferred to the walk over the block
table the full scan produced: the output at a paste site within any item
list is the flattening of the referenced block as stored in the final
table, spliced between the flattenings of the surrounding items; and on a
source where PASTE:X precedes the first CUT:X and two separate CUT:X spans
accumulate into X, the paste site receives the concatenation of both
spans. -/
theorem c2_thm (B : Blocks) (n : List Char) (bi l1 l2 : List Item)
    (o1 w o2 : List (List Char)) (f : Nat)
    (h1 : lookupB n B = some bi) (h2 : outputF f B l1 = Res.ok o1)
    (h3 : outputF f B bi = Res.ok w) (h4 : outputF f B l2 = Res.ok o2) :
    outputF (f + 1) B (l1 ++ Item.paste n :: l2) = Res.ok (o1 ++ (w ++ o2)) ∧
    extractF 100 none PyLang c2In = Res.ok c2Out := by
  constructor
  · have h2' : outAux (fun its => outputF f B its) B l1 = Res.ok o1 :=
      outputF_mono B f l1 o1 h2
    have h4' : outAux (fun its => outputF f B its) B l2 = Res.ok o2 :=
      outputF_mono B f l2 o2 h4
    have hp : outAux (fun its => outputF f B its) B (Item.paste n :: l2) = Res.ok (w ++ o2) := by
      simp only [outAux, h1, h3, h4']
    show outAux (fun its => outputF f B its) B (l1 ++ Item.paste n :: l2) =
      Res.ok (o1 ++ (w ++ o2))
    exact outAux_app h2' hp
  · decide

/-- Witness for c2_thm at a concrete two-block table and on the concrete
source. -/
theorem c2_witness :
    outputF 1 c2WB ([Item.lit ['a']] ++ Item.paste xName :: []) =
      Res.ok ([['a']] ++ ([['b']] ++ [])) ∧
    extractF 100 none PyLang c2In = Res.ok c2Out :=
  c2_thm c2WB xName [Item.lit ['b']] [Item.lit ['a']] [] [['a']] [['b']] [] 0
    (by decide) (by decide) (by decide) (by decide)

theorem c3_loop : ∀ f, outputF f c3Bcyc [Item.paste xName] = Res.err Err.fuel := by
  intro f
  have hl : lookupB xName c3Bcyc = some [Item.paste xName] := by decide
  induction f with
  | zero => decide
  | succ f ih =>
    show outAux (fun items => outputF f c3Bcyc items) c3Bcyc [Item.paste xName] =
      Res.err Err.fuel
    simp only [outAux, hl, ih]

set_option maxRecDepth 40000 in
/-- C3 is refuted: a scan can produce a block table whose paste references
form a cycle, on which the output walk never terminates (every recursion
bound is exhausted), and even on terminating inputs the total output size
can exceed the input size when a block is pasted several times. -/
theorem c3_counterexample :
    (∀ f, extractF f none PyLang c3In = Res.err Err.fuel) ∧
    extractF 100 none PyLang c3Sz = Res.ok c3SzOut ∧ sumLen c3SzOut > c3Sz.length := by
  refine ⟨fun f => ?_, by decide, by decide⟩
  have h : extractF f none PyLang c3In = outputF f c3Bcyc [Item.paste xName] := rfl
  rw [h, c3_loop f]

/-- C3 (corrected): the walk of the MAIN block terminates with a finite
fragment list whenever the block table admits a ranking of its paste
references (equivalently, whenever the paste-reference graph is acyclic);
a recursion bound of the rank of MAIN then suffices. -/
theorem c3_thm (B : Blocks) (rank : List Char → Nat) (its : List Item)
    (hB : RankOk B rank) (hm : lookupB mainName B = some its) :
    ∃ out, outputF (rank mainName) B its = Res.ok out :=
  outRankOk B rank hB (rank mainName) its (hB mainName its hm)

/-- Witness for c3_thm at a concrete acyclic two-block table. -/
theorem c3_witness :
    ∃ out, outputF (c3WRank mainName) c3WB [Item.lit ['a'], Item.paste xName] = Res.ok out := by
  apply c3_thm c3WB c3WRank _ ?_ (by decide)
  intro a items h n hn
  simp only [c3WB, lookupB] at h
  split at h
  · rename_i ha
    injection h with h
    subst h
    simp only [pasteNames, List.filterMap] at hn
    simp at hn
    subst hn
    refine ⟨[Item.lit ['b']], by decide, ?_⟩
    rw [← ha]
    decide
  · split at h
    · rename_i hx
      injection h with h
      subst h
      simp [pasteNames] at hn
    · cases h

/-- C4 is refuted on a C-family source in which the second start match
begins at offset 5, before the end offset 6 of the previously accepted
region, yet is accepted and produces output, because the scan compares
the END offset of the start match against the cursor. -/
theorem c4_counterexample :
    acceptRegionsF CLang.endSearch c4In c4Starts 0 0 =
      [⟨0, 0, 3, 4, 6⟩, ⟨1, 5, 8, 9, 11⟩] ∧
    (⟨1, 5, 8, 9, 11⟩ : Region).sStart < (⟨0, 0, 3, 4, 6⟩ : Region).eEnd ∧
    extractF 100 none CLang c4In = Res.ok [ ['A'], ['\n'], ['B'] ] :=
  ⟨by decide, by decide, by decide⟩

/-- C4 (corrected): every accepted region carries an end match found from
the end of its start match, an unterminated trailing start delimiter
yields no region, and consecutive accepted regions are chained through
the END offset of each start match: a start match is skipped exactly when
its end offset (not its begin offset) precedes the previous region's end
offset. -/
theorem c4_thm (es : List Char → Nat → Option (Nat × Nat)) (text : List Char) :
    ∀ starts i le, Chained le (acceptRegionsF es text starts i le) ∧
      ∀ r ∈ acceptRegionsF es text starts i le, es text r.sEnd = some (r.eStart, r.eEnd) := by
  intro starts
  induction starts with
  | nil =>
    intro i le
    exact ⟨trivial, by intro r hr; simp [acceptRegionsF] at hr⟩
  | cons p rest ih =>
    intro i le
    obtain ⟨ss, se⟩ := p
    simp only [acceptRegionsF]
    cases he : es text se with
    | none => exact ih (i + 1) le
    | some q =>
      obtain ⟨est, ee⟩ := q
      dsimp only
      by_cases hlt : se < le
      · rw [if_pos hlt]
        exact ih (i + 1) le
      · rw [if_neg hlt]
        refine ⟨⟨Nat.le_of_not_lt hlt, (ih (i + 1) ee).1⟩, ?_⟩
        intro r hr
        rcases List.mem_cons.mp hr with rfl | h2
        · exact he
        · exact (ih (i + 1) ee).2 r h2

/-- Witness for c4_thm on the accepted regions of the concrete C input. -/
theorem c4_witness : CLang.endSearch c4In 8 = some (9, 11) :=
  (c4_thm CLang.endSearch c4In c4Starts 0 0).2 ⟨1, 5, 8, 9, 11⟩ (by decide)

/-- C5 is refuted: with an options value carrying false for both flags the
extraction still inserts the synthetic newline fragment between the two
regions and still strips the first region's leading newline; the claimed
output under disabled options is not produced. -/
theorem c5_counterexample :
    extractF 100 (some ⟨false, false⟩) PyLang c5In = Res.ok [ ['A'], ['\n'], ['B'] ] ∧
    extractF 100 (some ⟨false, false⟩) PyLang c5In ≠ Res.ok [ '\n' :: ['A'], ['B'] ] :=
  ⟨by decide, by decide⟩

/-- C5 (corrected): the option coercion yields true for every options
value, so extraction is independent of the options argument, and under
the resulting always-true flags the synthetic newline is inserted exactly
when the region is not the first start match, the current target block is
non-empty, and its last unit is a non-empty string fragment not ending in
a newline (an empty string fragment there raises the index error
instead). -/
theorem c5_thm :
    (∀ o f, pyAndOr o f = true) ∧
    (∀ fuel o1 o2 L text, extractF fuel o1 L text = extractF fuel o2 L text) ∧
    (∀ i blk, (if true && decide (0 < i) then nlDecide blk else Res.ok false) = Res.ok true ↔
      0 < i ∧ ∃ s, blk.getLast? = some (Item.lit s) ∧ s ≠ [] ∧ s.getLast? ≠ some '\n') := by
  refine ⟨pyAndOr_true, ?_, ?_⟩
  · intro fuel o1 o2 L text
    simp only [extractF, pyAndOr_true]
  · intro i blk
    by_cases hi : 0 < i
    · rw [if_pos (by simp [hi])]
      simp only [hi, true_and]
      cases hb : blk.getLast? with
      | none =>
        simp only [nlDecide, hb]
        constructor
        · intro h; cases h
        · rintro ⟨s, hs, _⟩; cases hs
      | some it =>
        cases it with
        | paste n =>
          simp only [nlDecide, hb]
          constructor
          · intro h; cases h
          · rintro ⟨s, hs, _⟩; cases hs
        | lit s =>
          simp only [nlDecide, hb]
          cases hs : s.getLast? with
          | none =>
            have hnil : s = [] := by
              cases s with
              | nil => rfl
              | cons a as => exact absurd hs (by simp)
            constructor
            · intro h; cases h
            · rintro ⟨s2, hs2, hne, _⟩
              injection hs2 with hs2
              injection hs2 with hs2
              subst hs2
              exact absurd hnil hne
          | some c =>
            constructor
            · intro h
              have hc : c ≠ '\n' := by
                have := congrArg (fun x => match x with | Res.ok b => b | Res.err _ => false) h
                simpa using this
              refine ⟨s, rfl, ?_, by rw [hs]; simpa using hc⟩
              intro hnil
              rw [hnil] at hs
              cases hs
            · rintro ⟨s2, hs2, hne, hlast⟩
              injection hs2 with hs2
              injection hs2 with hs2
              subst hs2
              rw [hs] at hlast
              have hc : c ≠ '\n' := fun h => hlast (by rw [h])
              simp [hc]
    · rw [if_neg (by simp [hi])]
      constructor
      · intro h; cases h
      · rintro ⟨h, _⟩; exact absurd h hi

/-- Witness for c5_thm: the insertion condition holds at a concrete
non-first region with a non-empty literal last fragment. -/
theorem c5_witness :
    (if true && decide (0 < 1) then nlDecide [Item.lit ['a']] else Res.ok false) = Res.ok true :=
  (c5_thm.2.2 1 [Item.lit ['a']]).mpr ⟨by decide, ['a'], rfl, by decide, by decide⟩

theorem exists_neg_of_not_all {p : Char → Bool} {l : List Char} (h : ¬l.all p = true) :
    ∃ x ∈ l, p x = false := by
  by_contra hno
  push_neg at hno
  exact h (List.all_eq_true.mpr (fun x hx => eq_true_of_ne_false (hno x hx)))

theorem backSpaces_spec : ∀ (l acc : List Char), backSpaces l acc =
    (if (l.takeWhile (fun c => !(isEol c))).all inSPACES = true
     then acc ++ l.takeWhile (fun c => !(isEol c))
     else ((l.takeWhile (fun c => !(isEol c))).reverse.takeWhile inSPACES).reverse) := by
  intro l
  induction l with
  | nil => intro acc; simp [backSpaces]
  | cons c rest ih =>
    intro acc
    by_cases he : isEol c = true
    · have ht : (c :: rest).takeWhile (fun x => !(isEol x)) = [] :=
        List.takeWhile_cons_of_neg (by simp [he])
      rw [ht]
      have hstep : backSpaces (c :: rest) acc = acc := by
        simp only [backSpaces, if_pos he]
      rw [hstep]
      simp
    · have hbe : isEol c = false := Bool.of_not_eq_true he
      have ht : (c :: rest).takeWhile (fun x => !(isEol x)) =
          c :: rest.takeWhile (fun x => !(isEol x)) :=
        List.takeWhile_cons_of_pos (by simp [hbe])
      rw [ht]
      by_cases hc : inSPACES c = true
      · have hstep : backSpaces (c :: rest) acc = backSpaces rest (acc ++ [c]) := by
          simp only [backSpaces, if_neg he, if_pos hc]
        rw [hstep, ih (acc ++ [c])]
        have hcons : (c :: rest.takeWhile (fun x => !(isEol x))).all inSPACES
            = (rest.takeWhile (fun x => !(isEol x))).all inSPACES := by
          simp [List.all_cons, hc]
        rw [hcons]
        by_cases hall : (rest.takeWhile (fun x => !(isEol x))).all inSPACES = true
        · rw [if_pos hall, if_pos hall, List.append_assoc]
          rfl
        · have hex : ∃ x ∈ (rest.takeWhile (fun y => !(isEol y))).reverse, inSPACES x = false := by
            rcases exists_neg_of_not_all hall with ⟨x, hx, hpx⟩
            exact ⟨x, List.mem_reverse.mpr hx, hpx⟩
          rw [if_neg hall, if_neg hall, List.reverse_cons, takeWhile_app_neg hex]
      · have hcf : inSPACES c = false := Bool.of_not_eq_true hc
        have hstep : backSpaces (c :: rest) acc = backSpaces rest [] := by
          simp only [backSpaces, if_neg he, if_neg hc]
        rw [hstep, ih []]
        have hcons : (c :: rest.takeWhile (fun x => !(isEol x))).all inSPACES = false := by
          simp [List.all_cons, hcf]
        rw [hcons]
        by_cases hall : (rest.takeWhile (fun x => !(isEol x))).all inSPACES = true
        · rw [if_pos hall]
          rw [if_neg (show ¬(false = true) from by simp)]
          rw [List.nil_append, List.reverse_cons,
            takeWhile_app_pos (fun x hx => (List.all_eq_true.mp hall) x (List.mem_reverse.mp hx)),
            List.takeWhile_cons_of_neg (by simp [hcf]), List.append_nil,
            List.reverse_reverse]
        · have hex : ∃ x ∈ (rest.takeWhile (fun y => !(isEol y))).reverse, inSPACES x = false := by
            rcases exists_neg_of_not_all hall with ⟨x, hx, hpx⟩
            exact ⟨x, List.mem_reverse.mpr hx, hpx⟩
          rw [if_neg hall]
          rw [if_neg (show ¬(false = true) from by simp)]
          rw [List.reverse_cons, takeWhile_app_neg hex]

/-- C6 is refuted: at the concrete verbatim input the engine's reference
indent is the leading tab run of the marker's line, not the horizontal
whitespace immediately preceding the verbatim-start offset (which is
empty, the offset being preceded by the directive's delimiter), and in
the four-space scenario no space prefix is stripped at all, so the claimed
four-space removal does not happen. -/
theorem c6_counterexample :
    refIndent c6In 23 = ['\t'] ∧
    refIndentSpec c6In 23 = [] ∧
    extractF 100 none PyLang c6Sp = Res.ok [ "    code\n".toList ] ∧
    extractF 100 none PyLang c6Sp ≠ Res.ok [ "code\n".toList ] :=
  ⟨by decide, by decide, by decide, by decide⟩

/-- C6 (corrected): the reference indent equals the maximal prefix of the
line containing the verbatim offset drawn from the profile's SPACES set,
which holds tab and newline, hence within a line only tabs: the backward
scan resets on every other character (spaces included) and stops only at
an end-of-line character; the indent, when it prefixes a kept line, is
removed from it in full; on the concrete tab-indented input the kept line
loses exactly the one-tab reference indent while strip-matching lines are
dropped. -/
theorem c6_thm :
    (∀ (text : List Char) (v : Nat), refIndent text v =
      (((text.take v).reverse.takeWhile (fun c => !(isEol c))).reverse).takeWhile inSPACES) ∧
    (∀ (ind l : List Char), ind.isPrefixOf l = true → deindent l ind = l.drop ind.length) ∧
    extractF 100 none PyLang c6In = Res.ok [ "\tfoo".toList ] := by
  refine ⟨?_, ?_, by decide⟩
  · intro text v
    rw [refIndent, backSpaces_spec]
    by_cases hall : (((text.take v).reverse).takeWhile (fun c => !(isEol c))).all inSPACES = true
    · rw [if_pos hall, List.nil_append]
      exact (takeWhile_all (fun x hx =>
        (List.all_eq_true.mp hall) x (List.mem_reverse.mp hx))).symm
    · rw [if_neg hall, List.reverse_reverse]
  · intro ind
    induction ind with
    | nil =>
      intro l _
      cases l with
      | nil => rfl
      | cons a as => rfl
    | cons d ind ih =>
      intro l hp
      rcases isPrefixOf_ex.mp hp with ⟨r, rfl⟩
      show deindent (d :: (ind ++ r)) (d :: ind) = _
      simp only [deindent, if_pos rfl]
      rw [ih (ind ++ r) (isPrefixOf_app ind r)]
      rfl

/-- Witness for c6_thm: the indent-removal part at a concrete line. -/
theorem c6_witness :
    deindent ("\t\tfoo".toList) ['\t'] = ("\t\tfoo".toList).drop 1 :=
  c6_thm.2.1 ['\t'] ("\t\tfoo".toList) (by decide)

/-- C7 is refuted on its generic part: the escape pattern of the source is
a backslash followed by any character except a newline, so a backslash
immediately before a newline is kept verbatim instead of collapsing. -/
theorem c7_counterexample :
    processBlock ['\\', '\n'] = ['\\', '\n'] ∧
    (['\\', '\n'] : List Char) ≠ ['\n'] ∧
    extractF 100 none PyLang c7Nl = Res.ok [ "a\\\nb".toList ] ∧
    ("a\\\nb".toList : List Char) ≠ "a\nb".toList :=
  ⟨by decide, by decide, by decide, by decide⟩

theorem processBlock_cons_ne {a : Char} {l : List Char} (ha : ¬a = '\\') (hl : l ≠ []) :
    processBlock (a :: l) = a :: processBlock l := by
  cases l with
  | nil => exact absurd rfl hl
  | cons b bs =>
    simp only [processBlock]
    rw [if_neg ha]

/-- C7 (corrected): inside a literal fragment every backslash-prefixed
character other than a newline collapses to that character (a
backslash-newline pair is preserved), and the escaped end delimiter of
the Python profile survives a region unterminated and is emitted as the
literal unescaped delimiter. -/
theorem c7_thm :
    (∀ (s : List Char) (c : Char) (t : List Char), (∀ x ∈ s, ¬x = '\\') → ¬c = '\n' →
      processBlock (s ++ '\\' :: c :: t) = s ++ c :: processBlock t) ∧
    extractF 100 none PyLang c7In = Res.ok [ "A\x7d\x7d\x7dB".toList ] := by
  refine ⟨?_, by decide⟩
  intro s
  induction s with
  | nil =>
    intro c t _ hc
    show processBlock ('\\' :: c :: t) = c :: processBlock t
    simp [processBlock, hc]
  | cons a s2 ih =>
    intro c t hs hc
    rw [List.cons_append,
      processBlock_cons_ne (hs a (List.mem_cons_self a s2)) (by simp),
      ih c t (fun x hx => hs x (List.mem_cons_of_mem a hx)) hc,
      List.cons_append]

/-- Witness for c7_thm: the generic collapse at a concrete fragment. -/
theorem c7_witness :
    processBlock (['a', 'b'] ++ '\\' :: 'x' :: ['y']) = ['a', 'b'] ++ 'x' :: processBlock ['y'] :=
  c7_thm.1 ['a', 'b'] 'x' ['y'] (by decide) (by decide)

theorem stripLeadNl_err {t : List Char} {e : Err} (h : stripLeadNl t = Res.err e) :
    e = Err.indexError := by
  cases t with
  | nil =>
    simp only [stripLeadNl] at h
    injection h with h
    exact h.symm
  | cons c rest => simp [stripLeadNl] at h

theorem nlDecide_err {blk : List Item} {e : Err} (h : nlDecide blk = Res.err e) :
    e = Err.indexError := by
  unfold nlDecide at h
  split at h
  · split at h
    · injection h with h
      exact h.symm
    · cases h
  · cases h

theorem ite_err {α : Type} {b : Bool} {X : Res α} {y : α} {e : Err}
    (h : (if b = true then X else Res.ok y) = Res.err e) : X = Res.err e := by
  cases b with
  | false => simp at h
  | true => simpa using h

theorem scanLitStrip_err {stp : Bool} {r : Region} {blk : List Item} {t : List Char} {e : Err}
    (h : scanLitStrip stp r blk t = Res.err e) : e = Err.indexError := by
  unfold scanLitStrip at h
  exact stripLeadNl_err (ite_err h)

theorem scanLitNl_err {nl : Bool} {r : Region} {blk : List Item} {e : Err}
    (h : scanLitNl nl r blk = Res.err e) : e = Err.indexError := by
  unfold scanLitNl at h
  exact nlDecide_err (ite_err h)

theorem scanLit_err {nl stp : Bool} {text : List Char} {st : ScanSt} {r : Region}
    {t : List Char} {e : Err} (h : scanLit nl stp text st r t = Res.err e) :
    e = Err.indexError := by
  unfold scanLit at h
  cases h1 : scanLitStrip stp r (curItems (scanLitFlush text st r)) t with
  | err e2 =>
    simp only [h1] at h
    injection h with h
    subst h
    exact scanLitStrip_err h1
  | ok t2 =>
    simp only [h1] at h
    cases h2 : scanLitNl nl r (curItems (scanLitFlush text st r)) with
    | err e2 =>
      simp only [h2] at h
      injection h with h
      subst h
      exact scanLitNl_err h2
    | ok ins =>
      simp only [h2] at h
      cases h

theorem command_kw {t : List Char} {k : String} {a : List Char}
    (h : command t = some (k, a)) :
    k = "PASTE" ∨ k = "CUT" ∨ k = "END" ∨ k = "VERBATIM" := by
  unfold command at h
  dsimp only at h
  split at h
  · injection h with h
    exact Or.inl (congrArg Prod.fst h).symm
  · split at h
    · injection h with h
      exact Or.inr (Or.inl (congrArg Prod.fst h).symm)
    · split at h
      · injection h with h
        exact Or.inr (Or.inr (Or.inl (congrArg Prod.fst h).symm))
      · split at h
        · injection h with h
          exact Or.inr (Or.inr (Or.inr (congrArg Prod.fst h).symm))
        · cases h

theorem scanStep_not_uns (nl stp : Bool) (L : Lang) (text : List Char) (st : ScanSt)
    (r : Region) : scanStep nl stp L text st r ≠ Res.err Err.unsupported := by
  intro h
  unfold scanStep at h
  dsimp only at h
  split at h
  · have := scanLit_err h
    cases this
  · rename_i k a heq
    split at h
    · cases h
    · split at h
      · cases h
      · split at h
        · cases h
        · split at h
          · split at h
            · cases h
            · split at h
              · injection h with h
                cases h
              · cases h
          · rename_i h1 h2 h3 h4
            rcases command_kw heq with h5 | h5 | h5 | h5
            · exact h3 h5
            · exact h1 h5
            · exact h2 h5
            · exact h4 h5

theorem scanFold_not_uns (nl stp : Bool) (L : Lang) (text : List Char) :
    ∀ (regs : List Region) (st : ScanSt),
    scanFold nl stp L text regs st ≠ Res.err Err.unsupported := by
  intro regs
  induction regs with
  | nil => intro st h; cases h
  | cons r rest ih =>
    intro st h
    unfold scanFold at h
    split at h
    · rename_i e he
      injection h with h
      subst h
      exact scanStep_not_uns nl stp L text st r he
    · rename_i st2 hst2
      exact ih st2 h

theorem outAux_not_uns {rec : List Item → Res (List (List Char))} {B : Blocks}
    (hrec : ∀ l, rec l ≠ Res.err Err.unsupported) :
    ∀ l, outAux rec B l ≠ Res.err Err.unsupported := by
  intro l
  induction l with
  | nil => intro h; cases h
  | cons it rest ih =>
    intro h
    cases it with
    | lit s =>
      simp only [outAux] at h
      cases hr : outAux rec B rest with
      | ok o => rw [hr] at h; cases h
      | err e =>
        rw [hr] at h
        injection h with h
        subst h
        exact ih hr
    | paste n =>
      simp only [outAux] at h
      cases hl : lookupB n B with
      | none =>
        simp only [hl] at h
        injection h with h
        cases h
      | some items =>
        simp only [hl] at h
        cases hi : rec items with
        | err e =>
          simp only [hi] at h
          injection h with h
          subst h
          exact hrec items hi
        | ok oi =>
          simp only [hi] at h
          cases hr : outAux rec B rest with
          | err e =>
            simp only [hr] at h
            injection h with h
            subst h
            exact ih hr
          | ok orest => simp only [hr] at h; cases h

theorem outputF_not_uns (B : Blocks) :
    ∀ (f : Nat) (l : List Item), outputF f B l ≠ Res.err Err.unsupported := by
  intro f
  induction f with
  | zero => exact outAux_not_uns (fun l h => by cases h)
  | succ f ih => exact outAux_not_uns (fun l h => ih l h)

/-- C8 is refuted: a region whose processed text begins with the CUT
keyword but carries a malformed lower-case name is not a command at all
and is emitted as a literal fragment; no unsupported-directive failure
occurs. -/
theorem c8_counterexample :
    command ("CUT:foo".toList) = none ∧
    extractF 100 none PyLang c8In = Res.ok [ "CUT:foo".toList ] ∧
    extractF 100 none PyLang c8In ≠ Res.err Err.unsupported :=
  ⟨by decide, by decide, by decide⟩

/-- C8 (corrected): the command matcher only ever reports one of the four
keywords, so the unsupported-command branch of the dispatch is
unreachable and extraction never fails with the unsupported error; a
region whose text begins with a keyword but breaks the directive grammar
is emitted as a literal fragment instead. -/
theorem c8_thm :
    (∀ (t : List Char) (k : String) (a : List Char), command t = some (k, a) →
      k = "PASTE" ∨ k = "CUT" ∨ k = "END" ∨ k = "VERBATIM") ∧
    (∀ (fuel : Nat) (o : Option Options) (L : Lang) (text : List Char),
      extractF fuel o L text ≠ Res.err Err.unsupported) ∧
    extractF 100 none PyLang c8In = Res.ok [ "CUT:foo".toList ] := by
  refine ⟨fun t k a h => command_kw h, ?_, by decide⟩
  intro fuel o L text h
  unfold extractF at h
  dsimp only at h
  split at h
  · rename_i e he
    injection h with h
    subst h
    exact scanFold_not_uns _ _ L text _ _ he
  · rename_i st hst
    split at h
    · injection h with h
      cases h
    · rename_i items hitems
      exact outputF_not_uns st.blocks fuel items h

/-- Witness for c8_thm at concrete inputs. -/
theorem c8_witness :
    (extractF 5 none PyLang c8In ≠ Res.err Err.unsupported) ∧
    ("PASTE" = "PASTE" ∨ "PASTE" = "CUT" ∨ "PASTE" = "END" ∨ "PASTE" = "VERBATIM") :=
  ⟨c8_thm.2.1 5 none PyLang c8In,
   c8_thm.1 ("PASTE:AB".toList) "PASTE" ['A', 'B'] (by decide)⟩

theorem lookupB_appendItem {k c : List Char} {it : Item} : ∀ (B : Blocks),
    (lookupB k (appendItem B c it) = none ↔ lookupB k B = none) ∧
    ((lookupB k (appendItem B c it)).isSome ↔ (lookupB k B).isSome) := by
  intro B
  induction B with
  | nil => exact ⟨Iff.rfl, Iff.rfl⟩
  | cons p rest ih =>
    have hq1 : (if p.1 = c then (p.1, p.2 ++ [it]) else p).1 = p.1 := by
      by_cases hc : p.1 = c <;> simp [hc]
    constructor
    · show lookupB k ((if p.1 = c then (p.1, p.2 ++ [it]) else p) :: appendItem rest c it)
        = none ↔ _
      simp only [lookupB, hq1]
      by_cases hpk : p.1 = k
      · simp [hpk]
      · simp only [if_neg hpk]
        exact ih.1
    · show (lookupB k ((if p.1 = c then (p.1, p.2 ++ [it]) else p) :: appendItem rest c it)).isSome
        ↔ _
      simp only [lookupB, hq1]
      by_cases hpk : p.1 = k
      · simp [hpk]
      · simp only [if_neg hpk]
        exact ih.2

theorem appendCur_none_iff (st : ScanSt) (it : Item) (k : List Char) :
    (lookupB k (appendCur st it).blocks = none ↔ lookupB k st.blocks = none) :=
  (lookupB_appendItem st.blocks).1

theorem appendCur_some_iff (st : ScanSt) (it : Item) (k : List Char) :
    ((lookupB k (appendCur st it).blocks).isSome ↔ (lookupB k st.blocks).isSome) :=
  (lookupB_appendItem st.blocks).2

theorem lookupB_append_one {k a : List Char} : ∀ (B : Blocks),
    lookupB k (B ++ [(a, ([] : List Item))]) =
      (match lookupB k B with
       | some v => some v
       | none => if a = k then some [] else none) := by
  intro B
  induction B with
  | nil => rfl
  | cons p rest ih =>
    simp only [List.cons_append, lookupB]
    by_cases hpk : p.1 = k
    · rw [if_pos hpk, if_pos hpk]
    · rw [if_neg hpk, if_neg hpk]
      exact ih

theorem ensureKey_self (a : List Char) (B : Blocks) : (lookupB a (ensureKey B a)).isSome := by
  unfold ensureKey
  cases h : lookupB a B with
  | some v => simp [h]
  | none => rw [lookupB_append_one, h]; simp

theorem ensureKey_none {k a : List Char} (B : Blocks) (hka : ¬k = a)
    (h : lookupB k B = none) : lookupB k (ensureKey B a) = none := by
  unfold ensureKey
  cases h2 : lookupB a B with
  | some v => exact h
  | none =>
    rw [lookupB_append_one, h]
    exact if_neg (fun hh => hka hh.symm)

theorem ensureKey_keeps {k a : List Char} (B : Blocks)
    (h : (lookupB k B).isSome) : (lookupB k (ensureKey B a)).isSome := by
  unfold ensureKey
  cases h2 : lookupB a B with
  | some v => exact h
  | none =>
    rw [lookupB_append_one]
    cases h3 : lookupB k B with
    | some v => simp
    | none => rw [h3] at h; simp at h

theorem scanLit_blocks {nl stp : Bool} {text : List Char} {st : ScanSt} {r : Region}
    {t : List Char} {st2 : ScanSt} (h : scanLit nl stp text st r t = Res.ok st2)
    (k : List Char) :
    (lookupB k st2.blocks = none ↔ lookupB k st.blocks = none) ∧
    ((lookupB k st2.blocks).isSome ↔ (lookupB k st.blocks).isSome) := by
  unfold scanLit at h
  have hflush : ∀ (q : List Char),
      (lookupB q (scanLitFlush text st r).blocks = none ↔ lookupB q st.blocks = none) ∧
      ((lookupB q (scanLitFlush text st r).blocks).isSome ↔ (lookupB q st.blocks).isSome) := by
    intro q
    unfold scanLitFlush
    cases st.verbatim with
    | none => exact ⟨Iff.rfl, Iff.rfl⟩
    | some v => exact ⟨appendCur_none_iff st _ q, appendCur_some_iff st _ q⟩
  cases h1 : scanLitStrip stp r (curItems (scanLitFlush text st r)) t with
  | err e => simp [h1] at h
  | ok t2 =>
    simp only [h1] at h
    cases h2 : scanLitNl nl r (curItems (scanLitFlush text st r)) with
    | err e => simp [h2] at h
    | ok ins =>
      simp only [h2] at h
      injection h with h
      subst h
      cases ins with
      | false =>
        constructor
        · exact Iff.trans (appendCur_none_iff (scanLitFlush text st r) _ k) (hflush k).1
        · exact Iff.trans (appendCur_some_iff (scanLitFlush text st r) _ k) (hflush k).2
      | true =>
        constructor
        · exact Iff.trans
            (appendCur_none_iff (appendCur (scanLitFlush text st r) (Item.lit ['\n'])) _ k)
            (Iff.trans (appendCur_none_iff (scanLitFlush text st r) _ k) (hflush k).1)
        · exact Iff.trans
            (appendCur_some_iff (appendCur (scanLitFlush text st r) (Item.lit ['\n'])) _ k)
            (Iff.trans (appendCur_some_iff (scanLitFlush text st r) _ k) (hflush k).2)

theorem scanStep_absent {nl stp : Bool} {L : Lang} {text : List Char} {st : ScanSt}
    {r : Region} {st2 : ScanSt} (h : scanStep nl stp L text st r = Res.ok st2)
    (k : List Char) (hk : lookupB k st.blocks = none)
    (hcut : ∀ a, command (processedText L text r) = some ("CUT", a) → ¬k = a) :
    lookupB k st2.blocks = none := by
  unfold scanStep at h
  dsimp only at h
  split at h
  · exact ((scanLit_blocks h k).1).mpr hk
  · rename_i k0 a heq
    split at h
    · rename_i hk0
      injection h with h
      subst h
      subst hk0
      exact ensureKey_none st.blocks (hcut a heq) hk
    · split at h
      · injection h with h
        subst h
        exact hk
      · split at h
        · injection h with h
          subst h
          exact ((lookupB_appendItem st.blocks).1).mpr hk
        · split at h
          · split at h
            · injection h with h
              subst h
              exact hk
            · split at h
              · cases h
              · injection h with h
                subst h
                exact ((lookupB_appendItem st.blocks).1).mpr hk
          · cases h

theorem scanStep_present {nl stp : Bool} {L : Lang} {text : List Char} {st : ScanSt}
    {r : Region} {st2 : ScanSt} (h : scanStep nl stp L text st r = Res.ok st2)
    (k : List Char) (hk : (lookupB k st.blocks).isSome) :
    (lookupB k st2.blocks).isSome := by
  unfold scanStep at h
  dsimp only at h
  split at h
  · exact ((scanLit_blocks h k).2).mpr hk
  · rename_i k0 a heq
    split at h
    · injection h with h
      subst h
      exact ensureKey_keeps st.blocks hk
    · split at h
      · injection h with h
        subst h
        exact hk
      · split at h
        · injection h with h
          subst h
          exact ((lookupB_appendItem st.blocks).2).mpr hk
        · split at h
          · split at h
            · injection h with h
              subst h
              exact hk
            · split at h
              · cases h
              · injection h with h
                subst h
                exact ((lookupB_appendItem st.blocks).2).mpr hk
          · cases h

theorem cutNames_head {L : Lang} {text : List Char} {r : Region} {rest : List Region}
    {a : List Char} (hcmd : command (processedText L text r) = some ("CUT", a)) :
    a ∈ cutNames L text (r :: rest) := by
  unfold cutNames
  rw [List.filterMap_cons]
  simp [hcmd]

theorem cutNames_tail {L : Lang} {text : List Char} {r : Region} {rest : List Region}
    {k : List Char} (h : k ∈ cutNames L text rest) : k ∈ cutNames L text (r :: rest) := by
  unfold cutNames at h ⊢
  rw [List.filterMap_cons]
  split
  · exact h
  · exact List.mem_cons_of_mem _ h

theorem scanFold_absent {nl stp : Bool} {L : Lang} {text : List Char} :
    ∀ (regs : List Region) (st st2 : ScanSt),
    scanFold nl stp L text regs st = Res.ok st2 → ∀ k, lookupB k st.blocks = none →
    k ∉ cutNames L text regs → lookupB k st2.blocks = none := by
  intro regs
  induction regs with
  | nil =>
    intro st st2 h k hk _
    injection h with h
    subst h
    exact hk
  | cons r rest ih =>
    intro st st2 h k hk hcut
    unfold scanFold at h
    split at h
    · cases h
    · rename_i st1 hstep
      refine ih st1 st2 h k ?_ (fun hmem => hcut (cutNames_tail hmem))
      refine scanStep_absent hstep k hk (fun a hcmd hka => ?_)
      subst hka
      exact hcut (cutNames_head hcmd)

theorem scanFold_present {nl stp : Bool} {L : Lang} {text : List Char} :
    ∀ (regs : List Region) (st st2 : ScanSt),
    scanFold nl stp L text regs st = Res.ok st2 → ∀ k, (lookupB k st.blocks).isSome →
    (lookupB k st2.blocks).isSome := by
  intro regs
  induction regs with
  | nil =>
    intro st st2 h k hk
    injection h with h
    subst h
    exact hk
  | cons r rest ih =>
    intro st st2 h k hk
    unfold scanFold at h
    split at h
    · cases h
    · rename_i st1 hstep
      exact ih st1 st2 h k (scanStep_present hstep k hk)

/-- C9 is refuted as universally stated: an input containing PASTE:X with
X never cut succeeds when the paste unit sits in a block the MAIN walk
never reaches. -/
theorem c9_counterexample :
    extractF 100 none PyLang c9In = Res.ok [ "hello".toList ] ∧
    extractF 100 none PyLang c9In ≠ Res.err (Err.undefinedBlock xName) :=
  ⟨by decide, by decide⟩

/-- C9 (corrected): a paste unit that the output walk actually reaches and
that names a block absent from the table fails with the undefined-block
lookup error; the scan keeps MAIN in the table throughout and adds keys
only for CUT targets, so a name that is never a CUT target and is not
MAIN is absent; a paste of MAIN itself therefore never fails the lookup.
On the concrete input whose MAIN pastes the never-cut X, consumption
fails with the lookup error for X. -/
theorem c9_thm :
    (∀ (B : Blocks) (n : List Char) (rest : List Item) (f : Nat), lookupB n B = none →
      outputF f B (Item.paste n :: rest) = Res.err (Err.undefinedBlock n)) ∧
    (∀ (nl stp : Bool) (L : Lang) (text : List Char) (regs : List Region) (st st2 : ScanSt),
      scanFold nl stp L text regs st = Res.ok st2 →
      ((lookupB mainName st.blocks).isSome → (lookupB mainName st2.blocks).isSome) ∧
      (∀ k, lookupB k st.blocks = none → k ∉ cutNames L text regs →
        lookupB k st2.blocks = none)) ∧
    extractF 100 none PyLang c9Bad = Res.err (Err.undefinedBlock xName) := by
  refine ⟨?_, ?_, by decide⟩
  · intro B n rest f h
    cases f with
    | zero =>
      show outAux _ B _ = _
      simp only [outAux, h]
    | succ f =>
      show outAux _ B _ = _
      simp only [outAux, h]
  · intro nl stp L text regs st st2 h
    exact ⟨fun hm => scanFold_present regs st st2 h mainName hm,
      fun k hk hcut => scanFold_absent regs st st2 h k hk hcut⟩

/-- Witness for c9_thm: a reached paste of an absent block fails at a
concrete table. -/
theorem c9_witness :
    outputF 3 [(mainName, [])] [Item.paste xName] = Res.err (Err.undefinedBlock xName) :=
  c9_thm.1 [(mainName, [])] xName [] 3 (by decide)

/-- C10 (confirmed): whenever the first accepted region of a C-family scan
is the first start match and its processed interior text is empty, the
extraction fails with the index error raised while testing the first
character for a leading newline, for every fuel and options value; the
input consisting of the start delimiter immediately closed realises
this. -/
theorem c10_thm (text : List Char) (f : Nat) (o : Option Options) (r : Region)
    (rest : List Region)
    (hacc : acceptRegionsF CLang.endSearch text
      (findAllF (text.length + 1) CLang.startPat text 0) 0 0 = r :: rest)
    (hidx : r.idx = 0)
    (ht : processedText CLang text r = []) :
    extractF f o CLang text = Res.err Err.indexError := by
  unfold extractF
  dsimp only
  rw [pyAndOr_true, pyAndOr_true, hacc]
  have hstep : scanStep true true CLang text ⟨[(mainName, [])], mainName, none, 0⟩ r
      = Res.err Err.indexError := by
    unfold scanStep
    dsimp only
    rw [ht, command_nil]
    show scanLit true true text ⟨[(mainName, [])], mainName, none, 0⟩ r []
      = Res.err Err.indexError
    unfold scanLit
    have hstrip : scanLitStrip true r
        (curItems (scanLitFlush text ⟨[(mainName, [])], mainName, none, 0⟩ r)) []
        = Res.err Err.indexError := by
      have hfl : scanLitFlush text ⟨[(mainName, [])], mainName, none, 0⟩ r
          = ⟨[(mainName, [])], mainName, none, 0⟩ := rfl
      rw [hfl]
      unfold scanLitStrip
      rw [hidx]
      rw [if_pos (by decide)]
      rfl
    simp only [hstrip]
  simp only [scanFold, hstep]

/-- Witness for c10_thm at the concrete C input of an immediately closed
start delimiter. -/
theorem c10_witness : extractF 7 none CLang c10In = Res.err Err.indexError :=
  c10_thm c10In 7 none ⟨0, 0, 3, 3, 5⟩ [] (by decide) (by decide) (by decide)

theorem tw_dw (p : Char → Bool) : ∀ (l : List Char), l.takeWhile p ++ l.dropWhile p = l := by
  intro l
  induction l with
  | nil => rfl
  | cons a as ih =>
    by_cases h : p a
    · rw [List.takeWhile_cons_of_pos h, List.dropWhile_cons_of_pos h, List.cons_append, ih]
    · rw [List.takeWhile_cons_of_neg h, List.dropWhile_cons_of_neg h]
      rfl

theorem isPrefixOf_cons_ne {a b : Char} {l1 l2 : List Char} (h : (a == b) = false) :
    List.isPrefixOf (a :: l1) (b :: l2) = false := by
  simp [List.isPrefixOf, h]

theorem tryCmd_none_of_ne {kw r : List Char} (h : kw.isPrefixOf r = false) :
    tryCmd kw r = none := by
  unfold tryCmd
  rw [if_neg (by simp [h])]

theorem paste_not_cut (x : List Char) : kwPasteC.isPrefixOf (kwCutC ++ x) = false :=
  isPrefixOf_cons_ne (by decide)

theorem paste_not_end (x : List Char) : kwPasteC.isPrefixOf (kwEndC ++ x) = false :=
  isPrefixOf_cons_ne (by decide)

theorem cut_not_end (x : List Char) : kwCutC.isPrefixOf (kwEndC ++ x) = false :=
  isPrefixOf_cons_ne (by decide)

theorem paste_not_verb (x : List Char) : kwPasteC.isPrefixOf (kwVerbC ++ x) = false :=
  isPrefixOf_cons_ne (by decide)

theorem cut_not_verb (x : List Char) : kwCutC.isPrefixOf (kwVerbC ++ x) = false :=
  isPrefixOf_cons_ne (by decide)

theorem end_not_verb (x : List Char) : kwEndC.isPrefixOf (kwVerbC ++ x) = false :=
  isPrefixOf_cons_ne (by decide)

theorem start_not_end (x : List Char) : startTok.isPrefixOf (endTok ++ x) = false :=
  isPrefixOf_cons_ne (by decide)

theorem tryCmd_some {kw r nm : List Char} (h : tryCmd kw r = some nm) :
    ∃ rest, r = kw ++ (nm ++ rest) ∧ NameOk nm ∧ NameBoundary rest := by
  unfold tryCmd at h
  split at h
  · rename_i hpre
    rcases isPrefixOf_ex.mp hpre with ⟨r2, rfl⟩
    rw [List.drop_left] at h
    cases r2 with
    | nil => cases h
    | cons c cs =>
      simp only [matchNameTok] at h
      by_cases hu : isUpper c = true
      · rw [if_pos hu] at h
        injection h with h
        subst h
        refine ⟨cs.dropWhile isNameChar, ?_, ?_, dropWhile_head_neg⟩
        · rw [List.cons_append, tw_dw]
        · exact ⟨c, cs.takeWhile isNameChar, rfl, hu, fun x hx => mem_takeWhile_p hx⟩
      · rw [if_neg hu] at h
        cases h
  · cases h

theorem tryCmd_complete {kw nm rest : List Char} (hn : NameOk nm) (hb : NameBoundary rest) :
    tryCmd kw (kw ++ (nm ++ rest)) = some nm := by
  unfold tryCmd
  rw [if_pos (isPrefixOf_app kw (nm ++ rest)), List.drop_left]
  rcases hn with ⟨c, cs, rfl, hu, hall⟩
  show matchNameTok (c :: (cs ++ rest)) = some (c :: cs)
  simp only [matchNameTok]
  rw [if_pos hu, takeWhile_app_bound hall hb]

theorem tryVerb_some {r a : List Char} (h : tryVerb r = some a) :
    (a = startTok ∧ ∃ rest, r = kwVerbC ++ (startTok ++ rest)) ∨
    (a = endTok ∧ ∃ rest, r = kwVerbC ++ (endTok ++ rest)) := by
  unfold tryVerb at h
  split at h
  · rename_i hpre
    rcases isPrefixOf_ex.mp hpre with ⟨r2, rfl⟩
    rw [List.drop_left] at h
    dsimp only at h
    split at h
    · rename_i hs
      injection h with h
      subst h
      rcases isPrefixOf_ex.mp hs with ⟨rest, rfl⟩
      exact Or.inl ⟨rfl, rest, rfl⟩
    · split at h
      · rename_i hns he
        injection h with h
        subst h
        rcases isPrefixOf_ex.mp he with ⟨rest, rfl⟩
        exact Or.inr ⟨rfl, rest, rfl⟩
      · cases h
  · cases h

theorem tryVerb_start (rest : List Char) :
    tryVerb (kwVerbC ++ (startTok ++ rest)) = some startTok := by
  unfold tryVerb
  dsimp only
  rw [if_pos (isPrefixOf_app kwVerbC (startTok ++ rest)), List.drop_left,
    if_pos (isPrefixOf_app startTok rest)]

theorem tryVerb_end (rest : List Char) :
    tryVerb (kwVerbC ++ (endTok ++ rest)) = some endTok := by
  unfold tryVerb
  dsimp only
  rw [if_pos (isPrefixOf_app kwVerbC (endTok ++ rest)), List.drop_left,
    if_neg (by simp [start_not_end]), if_pos (isPrefixOf_app endTok rest)]

/-- C1 is refuted: a region whose processed text begins with a well-formed
directive and continues with further prose is dispatched as that
directive (the matcher anchors only at the start), not appended as a
literal fragment: the CUT applies and the following literal accumulates
in the named block, leaving MAIN empty. -/
theorem c1_counterexample :
    command ("CUT:FOO and more".toList) = some ("CUT", "FOO".toList) ∧
    extractF 100 none PyLang c1In = Res.ok [] :=
  ⟨by decide, by decide⟩

/-- C1 (corrected): a region's processed text is treated as a directive
exactly when, after optional leading whitespace, it BEGINS with one of
the directive forms - the keyword, a colon and a maximal well-formed
argument - with arbitrary trailing text permitted after the matched
prefix. -/
theorem c1_thm : ∀ (t : List Char) (k : String) (nm : List Char),
    command t = some (k, nm) ↔ DirectiveAt t k nm := by
  intro t k nm
  constructor
  · intro h
    have hsplit : t = t.takeWhile isWs ++ t.dropWhile isWs := (tw_dw isWs t).symm
    have hws : WsRun (t.takeWhile isWs) := fun c hc => mem_takeWhile_p hc
    unfold command at h
    dsimp only at h
    split at h
    · rename_i nm0 hp
      injection h with h
      have hk : k = "PASTE" := (congrArg Prod.fst h).symm
      have hnm : nm0 = nm := congrArg Prod.snd h
      subst hk
      subst hnm
      rcases tryCmd_some hp with ⟨rest, hr, hn, hb⟩
      rw [hr] at hsplit
      exact ⟨t.takeWhile isWs, rest, hws, Or.inl ⟨rfl, hn, hb, hsplit⟩⟩
    · split at h
      · rename_i nm0 hp
        injection h with h
        have hk : k = "CUT" := (congrArg Prod.fst h).symm
        have hnm : nm0 = nm := congrArg Prod.snd h
        subst hk
        subst hnm
        rcases tryCmd_some hp with ⟨rest, hr, hn, hb⟩
        rw [hr] at hsplit
        exact ⟨t.takeWhile isWs, rest, hws, Or.inr (Or.inl ⟨rfl, hn, hb, hsplit⟩)⟩
      · split at h
        · rename_i nm0 hp
          injection h with h
          have hk : k = "END" := (congrArg Prod.fst h).symm
          have hnm : nm0 = nm := congrArg Prod.snd h
          subst hk
          subst hnm
          rcases tryCmd_some hp with ⟨rest, hr, hn, hb⟩
          rw [hr] at hsplit
          exact ⟨t.takeWhile isWs, rest, hws, Or.inr (Or.inr (Or.inl ⟨rfl, hn, hb, hsplit⟩))⟩
        · split at h
          · rename_i a0 hp
            injection h with h
            have hk : k = "VERBATIM" := (congrArg Prod.fst h).symm
            have hnm : a0 = nm := congrArg Prod.snd h
            subst hk
            subst hnm
            rcases tryVerb_some hp with ⟨rfl, rest, hr⟩ | ⟨rfl, rest, hr⟩
            · rw [hr] at hsplit
              exact ⟨t.takeWhile isWs, rest, hws,
                Or.inr (Or.inr (Or.inr ⟨rfl, Or.inl ⟨rfl, hsplit⟩⟩))⟩
            · rw [hr] at hsplit
              exact ⟨t.takeWhile isWs, rest, hws,
                Or.inr (Or.inr (Or.inr ⟨rfl, Or.inr ⟨rfl, hsplit⟩⟩))⟩
          · cases h
  · rintro ⟨ws, rest, hws, hcase⟩
    rcases hcase with ⟨rfl, hn, hb, rfl⟩ | ⟨rfl, hn, hb, rfl⟩ | ⟨rfl, hn, hb, rfl⟩ |
      ⟨rfl, hvb⟩
    · have hdrop : ((ws ++ (kwPasteC ++ (nm ++ rest))).dropWhile isWs)
          = kwPasteC ++ (nm ++ rest) := dropWhile_ws_app hws (by decide)
      unfold command
      dsimp only
      rw [hdrop, tryCmd_complete hn hb]
    · have hdrop : ((ws ++ (kwCutC ++ (nm ++ rest))).dropWhile isWs)
          = kwCutC ++ (nm ++ rest) := dropWhile_ws_app hws (by decide)
      unfold command
      dsimp only
      rw [hdrop, tryCmd_none_of_ne (paste_not_cut (nm ++ rest)), tryCmd_complete hn hb]
    · have hdrop : ((ws ++ (kwEndC ++ (nm ++ rest))).dropWhile isWs)
          = kwEndC ++ (nm ++ rest) := dropWhile_ws_app hws (by decide)
      unfold command
      dsimp only
      rw [hdrop, tryCmd_none_of_ne (paste_not_end (nm ++ rest)),
        tryCmd_none_of_ne (cut_not_end (nm ++ rest)), tryCmd_complete hn hb]
    · rcases hvb with ⟨rfl, rfl⟩ | ⟨rfl, rfl⟩
      · have hdrop : ((ws ++ (kwVerbC ++ (startTok ++ rest))).dropWhile isWs)
            = kwVerbC ++ (startTok ++ rest) := dropWhile_ws_app hws (by decide)
        unfold command
        dsimp only
        rw [hdrop, tryCmd_none_of_ne (paste_not_verb (startTok ++ rest)),
          tryCmd_none_of_ne (cut_not_verb (startTok ++ rest)),
          tryCmd_none_of_ne (end_not_verb (startTok ++ rest)), tryVerb_start]
      · have hdrop : ((ws ++ (kwVerbC ++ (endTok ++ rest))).dropWhile isWs)
            = kwVerbC ++ (endTok ++ rest) := dropWhile_ws_app hws (by decide)
        unfold command
        dsimp only
        rw [hdrop, tryCmd_none_of_ne (paste_not_verb (endTok ++ rest)),
          tryCmd_none_of_ne (cut_not_verb (endTok ++ rest)),
          tryCmd_none_of_ne (end_not_verb (endTok ++ rest)), tryVerb_end]

/-- Witness for c1_thm: the characterization applied at a concrete text
with trailing prose. -/
theorem c1_witness : DirectiveAt ("  CUT:A-B rest of prose".toList) "CUT" "A-B".toList :=
  (c1_thm ("  CUT:A-B rest of prose".toList) "CUT" ("A-B".toList)).mp (by decide)

end Literate
